import Mathlib

/-!
# Verification of the Yu-Gi-Oh deck bot core (`src/yu-gi-oh.py`)

A shallow embedding of the repository's core algorithms:

* the fuzzy name scorer `get_card_suggestions` (lines 264-297),
* the deck markup parser `parse_deck_list` (lines 1037-1188) over a small
  model of BeautifulSoup document trees,
* the deck upsert `save_deck_to_db` (lines 499-546) over a model of the
  SQLite tables created by `init_database` (lines 24-96).

Python strings are modelled as Lean `String` (a list of characters =
code points); `str.lower` is modelled on ASCII letters (the only case
mapping exercised by the inputs considered here), `str.split()` /
`str.strip()` use the whitespace class below, and string comparison is
by code point exactly as in CPython.
-/

namespace YuGiOh

/-- The whitespace characters recognised by `str.split()` / `str.strip()` /
the regex class `\s` (the ASCII ones plus NEL and NBSP; further exotic
Unicode space separators are not produced by any input considered here). -/
def isPySpace (c : Char) : Bool :=
  c = ' ' || c = '\t' || c = '\n' || c = '\x0b' || c = '\x0c' || c = '\r' ||
  c = '\x1c' || c = '\x1d' || c = '\x1e' || c = '\x1f' || c = '\x85' || c = '\xa0'

/-- `str.lower()` (ASCII case mapping). -/
def pyLower (s : String) : String := ⟨s.data.map Char.toLower⟩

/-- `str.strip()`: drop leading and trailing whitespace. -/
def pyStrip (s : String) : String :=
  ⟨(s.data.dropWhile isPySpace).reverse.dropWhile isPySpace |>.reverse⟩

/-- Helper for `pySplit`: splits a character list on whitespace runs,
`acc` holding the current word reversed. -/
def pySplitAux : List Char → List Char → List String
  | [], acc => if acc.isEmpty then [] else [⟨acc.reverse⟩]
  | c :: cs, acc =>
    if isPySpace c then
      if acc.isEmpty then pySplitAux cs []
      else ⟨acc.reverse⟩ :: pySplitAux cs []
    else pySplitAux cs (c :: acc)

/-- `str.split()` with no argument: split on whitespace runs, no empty parts. -/
def pySplit (s : String) : List String := pySplitAux s.data []

/-- `List.isPrefixOf` specialised by hand so that every proof is by direct
induction: is `pat` a prefix of `l`? -/
def prefixOfL : List Char → List Char → Bool
  | [], _ => true
  | _ :: _, [] => false
  | a :: as, b :: bs => a == b && prefixOfL as bs

/-- Does `l` contain `pat` as a contiguous sublist? Models Python's
substring test `pat in s`. -/
def containsL (pat : List Char) : List Char → Bool
  | [] => pat.isEmpty
  | c :: cs => prefixOfL pat (c :: cs) || containsL pat cs

/-- Python's `pat in s` substring test. -/
def strContains (s pat : String) : Bool := containsL pat.data s.data

/-- `s.startswith(pre)`. -/
def pyStartswith (s pre : String) : Bool := prefixOfL pre.data s.data

/-- Code-point lexicographic `<` on character lists: CPython's `str` order.
Characters are compared through their code points, which determine them. -/
def lexLt : List Char → List Char → Bool
  | [], [] => false
  | [], _ :: _ => true
  | _ :: _, [] => false
  | a :: as, b :: bs => a.toNat < b.toNat || (a.toNat == b.toNat && lexLt as bs)

/-- The numeric value of a run of decimal digits (`int()` on the digits a
regex captured; CPython integers are unbounded, as is `Nat`). -/
def digitsToNat (cs : List Char) : Nat :=
  cs.foldl (fun n c => n * 10 + (c.toNat - 48)) 0

/-- `re.search(r'\d+', s)` followed by `int(...)`: the first maximal run
of digits in `s` as a number, if any. -/
def firstInt (s : String) : Option Nat :=
  let cs := s.data.dropWhile (fun c => !c.isDigit)
  if cs.isEmpty then none else some (digitsToNat (cs.takeWhile Char.isDigit))

/-!
## The name scorer (`get_card_suggestions`, src/yu-gi-oh.py lines 264-297)

The catalog parameter stands for `card_database.keys()`: iteration order of
the Python dict is modelled by the order of the list. The function body can
raise `IndexError` at `search_words[0]` (line 286) when the query has no
tokens and some candidate enters the `all_words_present` branch (vacuously
true for an empty token list), so the embedding returns an `Option`:
`none` models the raise.
-/

/-- The score lines 277-291 compute for a candidate that passed the coarse
filter, assuming the token list is non-empty (`w0` its head). -/
def scoreFor (searchTerms : String) (searchWords : List String) (w0 : String)
    (cardName : String) : Int :=
  let cardLower := pyLower cardName
  let base : Int := 100
  let wordBonus : Int := 50 * (searchWords.countP
    (fun w => (pySplit cardLower).contains w))
  let startBonus : Int := if pyStartswith cardLower w0 then 25 else 0
  let lengthDiff : Int :=
    ((cardLower.data.length : Int) - (searchTerms.data.length : Int)).natAbs
  base + wordBonus + startBonus - lengthDiff

/-- One iteration of the loop at lines 270-293 for candidate `cardName`:
`none` = the iteration raises `IndexError` (empty token list, vacuous
`all_words_present`), `some none` = candidate filtered out, `some (some s)`
= candidate kept with score `s`. -/
def scoreCard (searchTerms : String) (searchWords : List String)
    (cardName : String) : Option (Option Int) :=
  let cardLower := pyLower cardName
  if searchWords.all (fun w => strContains cardLower w) then
    match searchWords with
    | [] => none
    | w0 :: _ => some (some (scoreFor searchTerms searchWords w0 cardName))
  else some none

/-- The whole scoring loop: the `(score, card_name)` list in catalog order,
or `none` if some iteration raises. -/
def scoreAll (searchTerms : String) (searchWords : List String) :
    List String → Option (List (Int × String))
  | [] => some []
  | c :: rest =>
    match scoreCard searchTerms searchWords c with
    | none => none
    | some none => scoreAll searchTerms searchWords rest
    | some (some s) => (scoreAll searchTerms searchWords rest).map ((s, c) :: ·)

/-- The comparison `scored_matches.sort(reverse=True)` sorts by (line 296):
tuples `(score, name)` descending, so `a` may precede `b` iff `a ≥ b` in
the lexicographic tuple order (`int` then code-point string order). -/
def tupleGe (a b : Int × String) : Bool :=
  decide (b.1 < a.1) || (decide (a.1 = b.1) && !(lexLt a.2.data b.2.data))

/-- `tupleGe` as a relation, for `List.insertionSort`. Elements related both
ways are equal tuples, so every sorted permutation — CPython's stable sort
included — is the same list; `insertionSort` is used because it evaluates
by kernel reduction. -/
def tupleRel (a b : Int × String) : Prop := tupleGe a b = true

instance : DecidableRel tupleRel := fun a b => instDecidableEqBool (tupleGe a b) true

/-- `get_card_suggestions(search_terms, max_suggestions)` over an explicit
catalog (the keys of `card_database` in iteration order). `none` models the
`IndexError` raised at line 286 when the query splits into no tokens while
the catalog is non-empty. -/
def get_card_suggestions (searchTerms : String) (catalog : List String)
    (maxSuggestions : Nat) : Option (List String) :=
  let searchWords := pySplit (pyLower searchTerms)
  (scoreAll searchTerms searchWords catalog).map fun scored =>
    ((scored.insertionSort tupleRel).take maxSuggestions).map (·.2)

/-!
### Facts about the scorer
-/

theorem lexLt_asymm : ∀ a b : List Char, lexLt a b = true → lexLt b a = false
  | [], [] => by simp [lexLt]
  | [], _ :: _ => by simp [lexLt]
  | _ :: _, [] => by simp [lexLt]
  | a :: as, b :: bs => by
    intro h
    rw [lexLt] at h ⊢
    rcases Nat.lt_trichotomy a.toNat b.toNat with hab | hab | hab
    · have h2 : (b.toNat == a.toNat) = false := by
        simp only [beq_eq_false_iff_ne, ne_eq]; omega
      simp [Nat.lt_asymm hab, h2]
    · have h1 : (a.toNat < b.toNat) = False := by simp [hab]
      have hrec : lexLt as bs = true := by
        simp only [h1, decide_False, Bool.false_or, Bool.and_eq_true, beq_iff_eq] at h
        exact h.2
      simp [Nat.lt_irrefl, hab, lexLt_asymm as bs hrec]
    · simp only [decide_eq_true_eq, Bool.or_eq_true, Bool.and_eq_true, beq_iff_eq] at h
      rcases h with h | ⟨h, _⟩ <;> omega

theorem lexLt_neg_trans : ∀ a b c : List Char,
    lexLt a b = false → lexLt b c = false → lexLt a c = false
  | [], [], c => fun _ h2 => h2
  | [], _ :: _, _ => by simp [lexLt]
  | _ :: _, [], [] => by simp [lexLt]
  | _ :: _, _ :: _, [] => by simp [lexLt]
  | _ :: _, [], _ :: _ => by simp [lexLt]
  | a :: as, b :: bs, c :: cs => by
    intro h1 h2
    rw [lexLt] at h1 h2 ⊢
    simp only [Bool.or_eq_false_iff, Bool.and_eq_false_iff, decide_eq_false_iff_not,
      Nat.not_lt, beq_eq_false_iff_ne, ne_eq, Bool.not_eq_true] at h1 h2 ⊢
    obtain ⟨hba, h1r⟩ := h1
    obtain ⟨hcb, h2r⟩ := h2
    refine ⟨Nat.le_trans hcb hba, ?_⟩
    by_cases hac : a.toNat = c.toNat
    · have hab : a.toNat = b.toNat := by omega
      have hbc : b.toNat = c.toNat := by omega
      rcases h1r with h1r | h1r
      · exact absurd hab h1r
      · rcases h2r with h2r | h2r
        · exact absurd hbc h2r
        · exact Or.inr (by
            simpa using lexLt_neg_trans as bs cs (by simpa using h1r) (by simpa using h2r))
    · exact Or.inl hac

theorem tupleGe_total (a b : Int × String) : tupleGe a b = true ∨ tupleGe b a = true := by
  simp only [tupleGe, Bool.or_eq_true, Bool.and_eq_true, decide_eq_true_eq,
    Bool.not_eq_true']
  rcases lt_trichotomy a.1 b.1 with h | h | h
  · exact Or.inr (Or.inl h)
  · rcases hl : lexLt a.2.data b.2.data with hv | hv
    · exact Or.inl (Or.inr ⟨h, rfl⟩)
    · exact Or.inr (Or.inr ⟨h.symm, lexLt_asymm _ _ hl⟩)
  · exact Or.inl (Or.inl h)

theorem tupleGe_trans (a b c : Int × String) (h1 : tupleGe a b = true)
    (h2 : tupleGe b c = true) : tupleGe a c = true := by
  simp only [tupleGe, Bool.or_eq_true, Bool.and_eq_true, decide_eq_true_eq,
    Bool.not_eq_true'] at h1 h2 ⊢
  rcases h1 with h1 | ⟨h1e, h1s⟩
  · rcases h2 with h2 | ⟨h2e, _⟩
    · exact Or.inl (lt_trans h2 h1)
    · exact Or.inl (h2e ▸ h1)
  · rcases h2 with h2 | ⟨h2e, h2s⟩
    · exact Or.inl (h1e ▸ h2)
    · exact Or.inr ⟨h1e.trans h2e, lexLt_neg_trans _ _ _ h1s h2s⟩

instance : IsTotal (Int × String) tupleRel :=
  ⟨fun a b => tupleGe_total a b⟩

instance : IsTrans (Int × String) tupleRel :=
  ⟨fun a b c => tupleGe_trans a b c⟩

/-- Every word `str.split()` yields occurs contiguously in the split string. -/
theorem pySplitAux_infix : ∀ (cs acc : List Char) (t : String),
    t ∈ pySplitAux cs acc → ∃ l₁ l₂, acc.reverse ++ cs = l₁ ++ t.data ++ l₂
  | [], acc, t => by
    rw [pySplitAux]
    by_cases h : acc.isEmpty = true
    · rw [if_pos h]
      simp
    · rw [if_neg h]
      simp only [List.mem_singleton]
      rintro rfl
      exact ⟨[], [], by simp⟩
  | c :: cs, acc, t => by
    rw [pySplitAux]
    by_cases hsp : isPySpace c = true
    · rw [if_pos hsp]
      by_cases hacc : acc.isEmpty = true
      · rw [if_pos hacc]
        intro ht
        obtain ⟨l₁, l₂, h⟩ := pySplitAux_infix cs [] t ht
        simp only [List.reverse_nil, List.nil_append] at h
        refine ⟨c :: l₁, l₂, ?_⟩
        have hnil : acc = [] := by simpa [List.isEmpty_iff] using hacc
        simp [hnil, h]
      · rw [if_neg hacc]
        intro ht
        rcases List.mem_cons.mp ht with rfl | ht
        · exact ⟨[], c :: cs, by simp⟩
        · obtain ⟨l₁, l₂, h⟩ := pySplitAux_infix cs [] t ht
          simp only [List.reverse_nil, List.nil_append] at h
          exact ⟨acc.reverse ++ c :: l₁, l₂, by simp [h]⟩
    · rw [if_neg hsp]
      intro ht
      obtain ⟨l₁, l₂, h⟩ := pySplitAux_infix cs (c :: acc) t ht
      simp only [List.reverse_cons, List.append_assoc, List.singleton_append] at h
      exact ⟨l₁, l₂, by simpa using h⟩

theorem prefixOfL_append : ∀ (pat r : List Char), prefixOfL pat (pat ++ r) = true
  | [], _ => rfl
  | a :: as, r => by simp [prefixOfL, prefixOfL_append as r]

theorem containsL_append : ∀ (l₁ pat l₂ : List Char),
    containsL pat (l₁ ++ pat ++ l₂) = true
  | [], pat, l₂ => by
    cases pat with
    | nil =>
      cases l₂ with
      | nil => rfl
      | cons c cs => simp [containsL, prefixOfL]
    | cons p ps =>
      have hp : prefixOfL (p :: ps) ((p :: ps) ++ l₂) = true := prefixOfL_append _ _
      simp only [List.nil_append, containsL, List.cons_append] at hp ⊢
      simp [hp]
  | c :: l₁, pat, l₂ => by
    have hrec := containsL_append l₁ pat l₂
    simp only [containsL, List.append_assoc, List.cons_append] at hrec ⊢
    simp [hrec]

/-- Every token of `str.split()` is a substring of the original string. -/
theorem strContains_of_token {s t : String} (h : t ∈ pySplit s) :
    strContains s t = true := by
  obtain ⟨l₁, l₂, hs⟩ := pySplitAux_infix s.data [] t h
  simp only [List.reverse_nil, List.nil_append] at hs
  simpa [strContains, hs] using containsL_append l₁ t.data l₂

/-- Everything `scoreAll` keeps came from the catalog, passed the coarse
filter, and carries the score of lines 277-291. -/
theorem scoreAll_mem {st : String} {sw : List String} :
    ∀ {cat : List String} {l : List (Int × String)},
      scoreAll st sw cat = some l → ∀ p ∈ l,
      p.2 ∈ cat ∧ sw.all (fun w => strContains (pyLower p.2) w) = true ∧
      ∃ w0 ws, sw = w0 :: ws ∧ p.1 = scoreFor st sw w0 p.2
  | [], l, h, p, hp => by
    simp only [scoreAll, Option.some.injEq] at h
    subst h
    simp at hp
  | c :: rest, l, h, p, hp => by
    rcases hall : sw.all (fun w => strContains (pyLower c) w) with hv | hv
    · have hsc : scoreCard st sw c = some none := by
        simp [scoreCard, hall]
      rw [scoreAll, hsc] at h
      obtain ⟨hmem, hflt, hsco⟩ := scoreAll_mem h p hp
      exact ⟨List.mem_cons_of_mem _ hmem, hflt, hsco⟩
    · cases sw with
      | nil =>
        have hsc : scoreCard st ([] : List String) c = none := by
          simp [scoreCard]
        rw [scoreAll, hsc] at h
        exact absurd h (by simp)
      | cons w0 ws =>
        have hsc : scoreCard st (w0 :: ws) c =
            some (some (scoreFor st (w0 :: ws) w0 c)) := by
          simp [scoreCard, hall]
        rw [scoreAll, hsc, Option.map_eq_some'] at h
        obtain ⟨l', hl', rfl⟩ := h
        rcases List.mem_cons.mp hp with rfl | hp'
        · exact ⟨List.mem_cons_self _ _, hall, w0, ws, rfl, rfl⟩
        · obtain ⟨hmem, hflt, hsco⟩ := scoreAll_mem hl' p hp'
          exact ⟨List.mem_cons_of_mem _ hmem, hflt, hsco⟩

/-- With a non-empty token list the loop never raises, and every candidate
passing the coarse filter is scored and kept. -/
theorem scoreAll_exact {st w0 : String} {ws : List String} :
    ∀ cat : List String, ∃ l, scoreAll st (w0 :: ws) cat = some l ∧
      ∀ c ∈ cat, (w0 :: ws).all (fun w => strContains (pyLower c) w) = true →
        (scoreFor st (w0 :: ws) w0 c, c) ∈ l
  | [] => ⟨[], rfl, by simp⟩
  | c :: rest => by
    obtain ⟨l, hl, hmem⟩ := @scoreAll_exact st w0 ws rest
    rcases hall : (w0 :: ws).all (fun w => strContains (pyLower c) w) with hv | hv
    · have hsc : scoreCard st (w0 :: ws) c = some none := by
        simp [scoreCard, hall]
      refine ⟨l, by rw [scoreAll, hsc]; exact hl, ?_⟩
      intro c' hc' hflt
      rcases List.mem_cons.mp hc' with rfl | hc'
      · rw [hflt] at hall; cases hall
      · exact hmem c' hc' hflt
    · have hsc : scoreCard st (w0 :: ws) c =
          some (some (scoreFor st (w0 :: ws) w0 c)) := by
        simp [scoreCard, hall]
      refine ⟨(scoreFor st (w0 :: ws) w0 c, c) :: l, ?_, ?_⟩
      · rw [scoreAll, hsc, hl]; rfl
      · intro c' hc' hflt
        rcases List.mem_cons.mp hc' with rfl | hc'
        · exact List.mem_cons_self _ _
        · exact List.mem_cons_of_mem _ (hmem c' hc' hflt)

/-- The `(score, name)` sort key the loop attaches to a candidate of query
`q` (an observer for stating order properties; `0` is a dummy for the
token-less case, in which no candidate is ever scored). -/
def queryKey (q card : String) : Int × String :=
  match pySplit (pyLower q) with
  | [] => (0, card)
  | w0 :: ws => (scoreFor q (w0 :: ws) w0 card, card)

/-- Every pair `scoreAll` produces is its own sort key. -/
theorem scoreAll_key {q : String} {cat : List String} {l : List (Int × String)}
    (h : scoreAll q (pySplit (pyLower q)) cat = some l) :
    ∀ p ∈ l, p = queryKey q p.2 := by
  intro p hp
  obtain ⟨-, -, w0, ws, hsw, hs⟩ := scoreAll_mem h p hp
  rw [hsw] at hs
  have hk : queryKey q p.2 = (scoreFor q (w0 :: ws) w0 p.2, p.2) := by
    unfold queryKey
    rw [hsw]
  rw [hk, ← hs]

/-!
### The claims about the scorer
-/

/-- C2, counterexample: catalog `["ax", "bx"]`, query `"x"` — the two
candidates score equally (99 each), yet the returned order is
`["bx", "ax"]`, the reverse of the catalog's iteration order, because
`scored_matches.sort(reverse=True)` compares the whole `(score, name)`
tuple and so breaks ties by name, descending. -/
theorem scorer_tie_counterexample :
    scoreFor "x" (pySplit (pyLower "x")) "x" "ax" =
      scoreFor "x" (pySplit (pyLower "x")) "x" "bx" ∧
    get_card_suggestions "x" ["ax", "bx"] 5 = some ["bx", "ax"] ∧
    (["bx", "ax"] : List String) ≠ ["ax", "bx"] := by decide

/-- C2 (corrected): the suggestion list is sorted by the `(score, name)`
tuple, descending — a strictly higher score comes first, and candidates of
equal score appear in descending code-point order of their names, not in
catalog order. -/
theorem scorer_tie_is_name_descending (q : String) (catalog : List String)
    (n : Nat) (l : List String)
    (h : get_card_suggestions q catalog n = some l) :
    l.Pairwise (fun a b => tupleGe (queryKey q a) (queryKey q b) = true) := by
  rw [get_card_suggestions, Option.map_eq_some'] at h
  obtain ⟨scored, hs, rfl⟩ := h
  have hsorted : (scored.insertionSort tupleRel).Pairwise tupleRel :=
    List.sorted_insertionSort tupleRel scored
  have htake : ((scored.insertionSort tupleRel).take n).Pairwise tupleRel :=
    hsorted.sublist (List.take_sublist n _)
  rw [List.pairwise_map]
  refine htake.imp_of_mem ?_
  intro p p' hp hp' hrel
  have hmemp : p ∈ scored :=
    ((List.perm_insertionSort tupleRel scored).mem_iff).mp
      ((List.take_sublist n _).subset hp)
  have hmemp' : p' ∈ scored :=
    ((List.perm_insertionSort tupleRel scored).mem_iff).mp
      ((List.take_sublist n _).subset hp')
  rwa [← scoreAll_key hs p hmemp, ← scoreAll_key hs p' hmemp']

/-- Witness for C2's theorem at the counterexample input. -/
theorem scorer_tie_is_name_descending_witness :
    (["bx", "ax"] : List String).Pairwise
      (fun a b => tupleGe (queryKey "x" a) (queryKey "x" b) = true) :=
  scorer_tie_is_name_descending "x" ["ax", "bx"] 5 ["bx", "ax"] (by decide)

/-- C3, counterexample: an empty query over the non-empty catalog `["a"]`
does not return an empty list — the loop raises `IndexError` at
`search_words[0]` (every candidate passes the vacuous all-tokens filter,
and the token list is empty). -/
theorem scorer_empty_query_counterexample :
    get_card_suggestions "" ["a"] 5 = none ∧
    get_card_suggestions "" ["a"] 5 ≠ some [] := by decide

/-- C3 (corrected): an empty catalog yields an empty suggestion list for
every query and every `maxResults`, and an empty query yields an empty
list only over the empty catalog; over any non-empty catalog an empty
query makes the scorer raise `IndexError` (modelled as `none`). -/
theorem scorer_empty_inputs :
    (∀ (q : String) (n : Nat), get_card_suggestions q [] n = some []) ∧
    (∀ (c : String) (cs : List String) (n : Nat),
      get_card_suggestions "" (c :: cs) n = none) := by
  constructor
  · intro q n
    have hget : get_card_suggestions q [] n =
        (scoreAll q (pySplit (pyLower q)) []).map
          (fun scored => ((scored.insertionSort tupleRel).take n).map (·.2)) := rfl
    have h0 : scoreAll q (pySplit (pyLower q)) [] = some [] := rfl
    have h1 : List.insertionSort tupleRel ([] : List (Int × String)) = [] := rfl
    rw [hget, h0, Option.map_some', h1, List.take_nil, List.map_nil]
  · intro c cs n
    rfl

/-- C4, counterexample: query `"a b"`, catalog `["A B", "a\tb"]`,
`maxResults = 1`. `"A B"` equals the query ignoring case, but the
tab-separated candidate `"a\tb"` earns the same score (its tokens are
whole words and it has the same length) and sorts above it (`'a' > 'A'`
by code point), so with `n = 1` the exactly-matching name is not among
the returned names. -/
theorem scorer_exact_match_counterexample :
    pyLower "A B" = pyLower "a b" ∧
    (1 : Nat) ≥ 1 ∧
    get_card_suggestions "a b" ["A B", "a\tb"] 1 = some ["a\tb"] ∧
    "A B" ∉ (["a\tb"] : List String) := by decide

/-- C4 (corrected): a catalog name equal to the query ignoring case always
survives the coarse filter and is scored (provided the query has at least
one token — an all-whitespace query raises instead), and it is guaranteed
to be among the returned names whenever `maxResults` is at least the
number of surviving candidates; a smaller `maxResults` can drop it in
favour of an equal-scoring candidate whose raw name compares greater. -/
theorem scorer_exact_match_survives (q : String) (catalog : List String)
    (n : Nat) (name : String) (hq : pySplit (pyLower q) ≠ [])
    (hmem : name ∈ catalog) (heq : pyLower name = pyLower q) :
    ∃ scored l, scoreAll q (pySplit (pyLower q)) catalog = some scored ∧
      get_card_suggestions q catalog n = some l ∧
      (∃ s, (s, name) ∈ scored) ∧
      (scored.length ≤ n → name ∈ l) := by
  obtain ⟨w0, ws, hsw⟩ := List.exists_cons_of_ne_nil hq
  obtain ⟨scored, hs, hkeep⟩ :=
    @scoreAll_exact q w0 ws catalog
  have hflt : (w0 :: ws).all (fun w => strContains (pyLower name) w) = true := by
    rw [List.all_eq_true]
    intro t ht
    rw [heq]
    exact strContains_of_token (by rw [hsw]; exact ht)
  have hin : (scoreFor q (w0 :: ws) w0 name, name) ∈ scored :=
    hkeep name hmem hflt
  have hget : get_card_suggestions q catalog n =
      (scoreAll q (pySplit (pyLower q)) catalog).map
        (fun sc => ((sc.insertionSort tupleRel).take n).map (·.2)) := rfl
  refine ⟨scored, ((scored.insertionSort tupleRel).take n).map (·.2),
    by rw [hsw]; exact hs, ?_, ⟨_, hin⟩, ?_⟩
  · rw [hget, hsw, hs, Option.map_some']
  · intro hlen
    have hperm := List.perm_insertionSort tupleRel scored
    have hsortmem : (scoreFor q (w0 :: ws) w0 name, name) ∈
        scored.insertionSort tupleRel := hperm.mem_iff.mpr hin
    have htake : (scored.insertionSort tupleRel).take n =
        scored.insertionSort tupleRel :=
      List.take_of_length_le (by rw [hperm.length_eq]; exact hlen)
    rw [htake]
    exact List.mem_map.mpr ⟨_, hsortmem, rfl⟩

/-- Witness for C4's theorem: query `"ab"`, catalog `["AB"]`, `n = 1`:
here the single surviving candidate is the exact match, and it is
returned. -/
theorem scorer_exact_match_survives_witness :
    ∃ l, get_card_suggestions "ab" ["AB"] 1 = some l ∧ "AB" ∈ l := by
  obtain ⟨scored, l, hs, hl, -, himp⟩ :=
    scorer_exact_match_survives "ab" ["AB"] 1 "AB" (by decide) (by decide)
      (by decide)
  have hscored : scored = [(175, "AB")] := by
    have : scoreAll "ab" (pySplit (pyLower "ab")) ["AB"] =
        some [(175, "AB")] := by decide
    rw [this] at hs
    exact (Option.some.injEq _ _ ▸ hs.symm)
  exact ⟨l, hl, himp (by rw [hscored]; decide)⟩

/-- C5 (confirmed): for a non-empty query, every name the scorer returns
contains every lowercase whitespace-delimited token of the query as a
substring of its lowercased form — the coarse filter admits only such
candidates. -/
theorem scorer_filter_sound (q : String) (catalog : List String) (n : Nat)
    (l : List String) (name t : String) (_hq : q ≠ "")
    (h : get_card_suggestions q catalog n = some l) (hname : name ∈ l)
    (ht : t ∈ pySplit (pyLower q)) :
    strContains (pyLower name) t = true := by
  rw [get_card_suggestions, Option.map_eq_some'] at h
  obtain ⟨scored, hs, rfl⟩ := h
  obtain ⟨p, hp, hp2⟩ := List.mem_map.mp hname
  have hmem : p ∈ scored :=
    ((List.perm_insertionSort tupleRel scored).mem_iff).mp
      ((List.take_sublist n _).subset hp)
  obtain ⟨-, hflt, -⟩ := scoreAll_mem hs p hmem
  rw [hp2] at hflt
  exact (List.all_eq_true.mp hflt) t ht

/-- Witness for C5's theorem at query `"dark"`, catalog
`["Dark Magician"]`. -/
theorem scorer_filter_sound_witness :
    strContains (pyLower "Dark Magician") "dark" = true :=
  scorer_filter_sound "dark" ["Dark Magician"] 5 ["Dark Magician"]
    "Dark Magician" "dark" (by decide) (by decide) (by decide) (by decide)

/-!
## The deck markup parser (`parse_deck_list`, src/yu-gi-oh.py lines 1037-1188)

The `soup` argument is modelled as a tree of elements and strings. An
element carries its tag name and its `class` attribute as one string
(BeautifulSoup matches `class_` patterns against class strings; the
multi-valued-class subtleties play no role here). `find`/`find_all`
walk the proper descendants in document (pre-)order; `find(string=...)`
returns the first matching descendant string.
-/

inductive Node where
  | elem (tag : String) (className : String) (children : List Node)
  | text (s : String)
deriving Repr

mutual

def nodeDescendants : Node → List Node
  | .elem _ _ cs => descendantsList cs
  | .text _ => []

def descendantsList : List Node → List Node
  | [] => []
  | n :: ns => n :: nodeDescendants n ++ descendantsList ns

end

mutual

def nodeStrings : Node → List String
  | .elem _ _ cs => stringsList cs
  | .text s => [s]

def stringsList : List Node → List String
  | [] => []
  | n :: ns => nodeStrings n ++ stringsList ns

end

/-- Does the node match a `find_all(tags, class_=...)` query? -/
def isElemMatch (tagOk classOk : String → Bool) : Node → Bool
  | .elem t c _ => tagOk t && classOk c
  | .text _ => false

/-- `soup.find_all(tags, class_=...)`: matching descendant elements in
document order. -/
def findAll (tagOk classOk : String → Bool) (root : Node) : List Node :=
  (nodeDescendants root).filter (isElemMatch tagOk classOk)

/-- `soup.find(tags, class_=...)`: the first match, if any. -/
def findFirst (tagOk classOk : String → Bool) (root : Node) : Option Node :=
  (findAll tagOk classOk root).head?

def textOf : Node → Option String
  | .text s => some s
  | .elem _ _ _ => none

/-- `soup.find(string=pattern)`: the first descendant string matching. -/
def findstring (p : String → Bool) (root : Node) : Option String :=
  ((nodeDescendants root).filterMap textOf).find? p

/-- `element.get_text(separator=sep)`: descendant strings joined by `sep`. -/
def getTextSep (sep : String) (n : Node) : String :=
  String.intercalate sep (nodeStrings n)

/-- `element.get_text(strip=True)`: each descendant string stripped, empty
ones skipped, the rest concatenated. -/
def getTextStrip (n : Node) : String :=
  String.join (((nodeStrings n).map pyStrip).filter (fun s => s ≠ ""))

def tagIs (t : String) : String → Bool := fun s => s == t

def tagIn (ts : List String) : String → Bool := fun s => ts.contains s

def anyClass : String → Bool := fun _ => true

def classIs (c : String) : String → Bool := fun s => s == c

/-- The suffix of `l` after the first occurrence of `pat`, if `pat`
occurs. -/
def afterFirst (pat : List Char) : List Char → Option (List Char)
  | [] => if pat.isEmpty then some [] else none
  | c :: cs =>
    if prefixOfL pat (c :: cs) then some ((c :: cs).drop pat.length)
    else afterFirst pat cs

/-- `re.search(a + '.*' + b, s)`: `a` occurs and `b` occurs at or after
its end. Checking `b` after the first occurrence of `a` is equivalent:
anything after a later occurrence is also after the first (the class
attributes this is applied to contain no newline, so `.` is unrestricted). -/
def seqContains (s a b : String) : Bool :=
  match afterFirst a.data s.data with
  | none => false
  | some rest => containsL b.data rest

/-- `re.compile(r'deck.*part|deck-section', re.I)` searched in a class
attribute (line 1079). -/
def classDeckPart (cls : String) : Bool :=
  seqContains (pyLower cls) "deck" "part" || strContains (pyLower cls) "deck-section"

/-- `re.compile(r'card|card-item')` (line 1084; an alternative whose second
branch is subsumed by the first). -/
def classCard (cls : String) : Bool := strContains cls "card"

/-- `re.compile(r'deck.*table|card.*table')` (line 1125, case-sensitive). -/
def classDeckTable (cls : String) : Bool :=
  seqContains cls "deck" "table" || seqContains cls "card" "table"

/-- `re.compile(r'name|card')` (line 1133). -/
def classNameOrCard (cls : String) : Bool :=
  strContains cls "name" || strContains cls "card"

/-- `re.compile(r'count|quantity')` (line 1134). -/
def classCountOrQuantity (cls : String) : Bool :=
  strContains cls "count" || strContains cls "quantity"

/-- `re.compile(r'deck.*list|card.*list')` (line 1159, case-sensitive). -/
def classDeckOrCardList (cls : String) : Bool :=
  seqContains cls "deck" "list" || seqContains cls "card" "list"

/-- `re.compile(r'Extra Deck', re.I)` searched in a string (line 1128). -/
def extraDeckMarker (s : String) : Bool := strContains (pyLower s) "extra deck"

/-- `re.search(r'Extra Deck|Extra:', text, re.I)` (line 1162): the block-
level extra-section marker of the plain-text strategy. -/
def hasExtraMarker (s : String) : Bool :=
  strContains (pyLower s) "extra deck" || strContains (pyLower s) "extra:"

/-- `re.compile(r'^\d+x?$')` as a BS4 string filter (line 1099): digits,
an optional `x`, end (`$` also matches before one final newline). -/
def isCountToken (s : String) : Bool :=
  let cs := if s.data.getLast? = some '\n' then s.data.dropLast else s.data
  !(cs.takeWhile Char.isDigit).isEmpty &&
    (cs.dropWhile Char.isDigit = [] || cs.dropWhile Char.isDigit = ['x'])

/-- The placeholder names rejected by deck-name extraction (line 1058). -/
def placeholderDeckNames : List String := ["master duel", "deck builder", "deck list"]

/-- The `for element in [...]` loops of lines 1049-1073: the first present
element whose stripped text is non-empty and not in the disallowed list
wins; otherwise the empty string stands. -/
def firstAcceptable (bad : List String) : List (Option Node) → String
  | [] => ""
  | none :: rest => firstAcceptable bad rest
  | some el :: rest =>
    let t := getTextStrip el
    if t ≠ "" && !(bad.contains (pyLower t)) then t
    else firstAcceptable bad rest

/-- Deck-name extraction (lines 1049-1060). -/
def extractDeckName (soup : Node) : String :=
  firstAcceptable placeholderDeckNames
    [findFirst (tagIs "h1") (classIs "deck-title") soup,
     findFirst (tagIs "h1") (classIs "title") soup,
     findFirst (tagIs "div") (classIs "deck-name") soup,
     findFirst (tagIs "h1") anyClass soup,
     findFirst (tagIs "title") anyClass soup]

/-- Author extraction (lines 1063-1073). -/
def extractAuthor (soup : Node) : String :=
  firstAcceptable ["unknown", "anonymous"]
    [findFirst (tagIs "span") (classIs "username") soup,
     findFirst (tagIs "div") (classIs "author") soup,
     findFirst (tagIs "div") (classIs "player-name") soup,
     findFirst (tagIs "a") (classIs "author-link") soup]

/-- A `{'name': ..., 'count': ...}` card entry. -/
structure Entry where
  name : String
  count : Nat
deriving Repr, DecidableEq

/-- The `deck_info` dict built by `parse_deck_list`. -/
structure DeckInfo where
  name : String
  author : String
  main_deck : List Entry
  extra_deck : List Entry
  url : String
deriving Repr, DecidableEq

/-- Strategy 1, per-card extraction (lines 1088-1119). The `Bool` tags the
section the card lands in (`true` = extra: `'extra' in section_name`). -/
def strat1Card (sectionName : String) (card : Node) : Option (Bool × Entry) :=
  let nameElement :=
    (findFirst (tagIn ["span", "div"]) (classIs "name") card).orElse fun _ =>
      (findFirst (tagIn ["span", "div"]) (classIs "card-name") card).orElse fun _ =>
        findFirst (tagIs "a") anyClass card
  let countElement : Option (Node ⊕ String) :=
    match findFirst (tagIn ["span", "div"]) (classIs "quantity") card with
    | some e => some (.inl e)
    | none =>
      match findFirst (tagIn ["span", "div"]) (classIs "count") card with
      | some e => some (.inl e)
      | none => (findstring isCountToken card).map .inr
  match nameElement with
  | none => none
  | some ne =>
    let cardCount :=
      match countElement with
      | none => 1
      | some (.inl e) => (firstInt (getTextStrip e)).getD 1
      | some (.inr s) => (firstInt (pyStrip s)).getD 1
    some (strContains sectionName "extra", ⟨getTextStrip ne, cardCount⟩)

/-- Strategy 1, per-part (lines 1080-1087): a part contributes — and sets
`parsed_cards` — iff it has a header and a non-empty card-element list. -/
def strat1Part (part : Node) : Option (List (Bool × Entry)) :=
  let header :=
    (findFirst (tagIn ["div", "h3", "h4"]) (classIs "header") part).orElse fun _ =>
      findFirst (tagIn ["div", "h3", "h4"]) anyClass part
  match header with
  | none => none
  | some h =>
    let sectionName := pyLower (getTextStrip h)
    let cards := findAll (tagIn ["div", "span"]) classCard part
    if cards.isEmpty then none
    else some (cards.filterMap (strat1Card sectionName))

/-- Strategy 1 (lines 1079-1121): `(parsed_cards, tagged entries)`. -/
def strategy1 (soup : Node) : Bool × List (Bool × Entry) :=
  (findAll (tagIn ["div", "section"]) classDeckPart soup).foldl
    (fun acc part =>
      match strat1Part part with
      | none => acc
      | some es => (true, acc.2 ++ es))
    (false, [])

/-- Strategy 2, per-row (lines 1131-1153). -/
def strat2Row (isExtra : Bool) (row : Node) : Option (Bool × Entry) :=
  match findFirst (tagIn ["td", "th"]) classNameOrCard row with
  | none => none
  | some nameCell =>
    let cardCount :=
      match findFirst (tagIn ["td", "th"]) classCountOrQuantity row with
      | none => 1
      | some countCell => (firstInt (getTextStrip countCell)).getD 1
    some (isExtra, ⟨getTextStrip nameCell, cardCount⟩)

/-- Strategy 2 (lines 1124-1155): tables whose class hints at a deck/card
table; a table is extra iff some descendant string mentions "Extra Deck". -/
def strategy2 (soup : Node) : Bool × List (Bool × Entry) :=
  (findAll (tagIs "table") classDeckTable soup).foldl
    (fun acc table =>
      let isExtra := (findstring extraDeckMarker table).isSome
      (findAll (tagIs "tr") anyClass table).foldl
        (fun acc2 row =>
          match strat2Row isExtra row with
          | none => acc2
          | some e => (true, acc2.2 ++ [e]))
        acc)
    (false, [])

/-- The line terminators of `str.splitlines()`. -/
def isLineBreak (c : Char) : Bool :=
  c = '\n' || c = '\r' || c = '\x0b' || c = '\x0c' ||
  c = '\x1c' || c = '\x1d' || c = '\x1e' || c = '\x85' ||
  c = '\u2028' || c = '\u2029'

def pySplitlinesAux : List Char → List Char → List String
  | [], acc => if acc.isEmpty then [] else [⟨acc.reverse⟩]
  | '\r' :: '\n' :: rest, acc => ⟨acc.reverse⟩ :: pySplitlinesAux rest []
  | c :: rest, acc =>
    if isLineBreak c then ⟨acc.reverse⟩ :: pySplitlinesAux rest []
    else pySplitlinesAux rest (c :: acc)

/-- `str.splitlines()`. -/
def pySplitlines (s : String) : List String := pySplitlinesAux s.data []

/-- `re.match(r'^\s*(\d+)x?\s+(.+)$', line)` (line 1165) and the entry it
yields: leading whitespace, a maximal digit run, an optional `x`, at least
one whitespace character, and a non-empty remainder (`.+` may swallow all
but one character of the whitespace run when nothing else is left, which
strips to an empty name — faithful to the regex's backtracking). -/
def parseLine (line : String) : Option Entry :=
  let r1 := line.data.dropWhile isPySpace
  let digits := r1.takeWhile Char.isDigit
  if digits.isEmpty then none
  else
    let r2 := r1.drop digits.length
    let afterX : Option (List Char) :=
      match r2 with
      | 'x' :: r => if r.head?.any isPySpace then some r else none
      | _ => if r2.head?.any isPySpace then some r2 else none
    match afterX with
    | none => none
    | some r =>
      let t := r.dropWhile isPySpace
      if !t.isEmpty then some ⟨pyStrip ⟨t⟩, digitsToNat digits⟩
      else if 2 ≤ (r.takeWhile isPySpace).length then
        some ⟨"", digitsToNat digits⟩
      else none

/-- Strategy 3, one text container (lines 1161-1173): the extra marker is
searched in the whole block text, and every matching line of the block is
tagged with that one block-level answer. -/
def strategy3Container (textContent : String) : List (Bool × Entry) :=
  (pySplitlines textContent).filterMap
    (fun line => (parseLine line).map (fun e => (hasExtraMarker textContent, e)))

/-- Strategy 3 (lines 1158-1173). -/
def strategy3 (soup : Node) : Bool × List (Bool × Entry) :=
  (findAll (tagIn ["div", "pre", "code"]) classDeckOrCardList soup).foldl
    (fun acc container =>
      let es := strategy3Container (pyStrip (getTextSep "\n" container))
      (acc.1 || !es.isEmpty, acc.2 ++ es))
    (false, [])

/-- The strategy chain (lines 1076-1173): strategy 2 runs only if strategy 1
set no `parsed_cards` flag, strategy 3 only if neither did; entries already
appended stay (a strategy that set no flag appended none, but the chain is
modelled literally). -/
def taggedEntries (soup : Node) : List (Bool × Entry) :=
  let s1 := strategy1 soup
  if s1.1 then s1.2
  else
    let s2 := strategy2 soup
    if s2.1 then s1.2 ++ s2.2
    else s1.2 ++ (strategy2 soup).2 ++ (strategy3 soup).2

/-- The `main_deck`/`extra_deck` lists before cleanup. The Python code
appends each entry to one of the two lists as it iterates; splitting the
tagged stream afterwards yields the same two lists in the same order. -/
def rawSections (soup : Node) : List Entry × List Entry :=
  let es := taggedEntries soup
  ((es.filter (fun be => !be.1)).map (·.2), (es.filter (·.1)).map (·.2))

/-- The cleanup loop (lines 1176-1183): keep an entry iff its name was not
seen before in the same section. -/
def cleanupSection : List Entry → List String → List Entry
  | [], _ => []
  | e :: rest, seen =>
    if seen.contains e.name then cleanupSection rest seen
    else e :: cleanupSection rest (e.name :: seen)

/-- `parse_deck_list(soup, url)` (lines 1037-1188). The Python body fills a
`deck_info` dict inside `try/except Exception` and returns it on every
path, so the embedding is a total function; `url` is stored at line 1044
and never touched again. -/
def parse_deck_list (soup : Node) (url : String) : DeckInfo :=
  let raw := rawSections soup
  { name := extractDeckName soup
    author := extractAuthor soup
    main_deck := cleanupSection raw.1 []
    extra_deck := cleanupSection raw.2 []
    url := url }

/-!
### Facts about the parser
-/

theorem cleanupSection_sublist : ∀ (l : List Entry) (seen : List String),
    (cleanupSection l seen).Sublist l
  | [], _ => List.Sublist.refl _
  | e :: rest, seen => by
    rw [cleanupSection]
    by_cases h : seen.contains e.name = true
    · rw [if_pos h]
      exact (cleanupSection_sublist rest seen).cons e
    · rw [if_neg h]
      exact (cleanupSection_sublist rest (e.name :: seen)).cons₂ e

theorem cleanupSection_nodup : ∀ (l : List Entry) (seen : List String),
    ((cleanupSection l seen).map Entry.name).Nodup ∧
    ∀ n ∈ (cleanupSection l seen).map Entry.name, n ∉ seen
  | [], _ => by simp [cleanupSection]
  | e :: rest, seen => by
    rw [cleanupSection]
    by_cases h : seen.contains e.name = true
    · rw [if_pos h]
      exact cleanupSection_nodup rest seen
    · rw [if_neg h]
      obtain ⟨hnd, hns⟩ := cleanupSection_nodup rest (e.name :: seen)
      have hmem : e.name ∉ seen := by simpa using h
      refine ⟨?_, ?_⟩
      · rw [List.map_cons, List.nodup_cons]
        exact ⟨fun hin => (hns e.name hin) (List.mem_cons_self _ _), hnd⟩
      · intro n hn
        rw [List.map_cons] at hn
        rcases List.mem_cons.mp hn with rfl | hn'
        · exact hmem
        · exact fun hns' => hns n hn' (List.mem_cons_of_mem _ hns')

theorem cleanupSection_first_occ : ∀ (l : List Entry) (seen : List String),
    ∀ e ∈ cleanupSection l seen, ∃ l₁ l₂, l = l₁ ++ e :: l₂ ∧
      e.name ∉ l₁.map Entry.name ∧ e.name ∉ seen
  | [], _ => by simp [cleanupSection]
  | x :: rest, seen => by
    rw [cleanupSection]
    by_cases h : seen.contains x.name = true
    · rw [if_pos h]
      intro e he
      obtain ⟨l₁, l₂, hsplit, hnot, hseen⟩ := cleanupSection_first_occ rest seen e he
      refine ⟨x :: l₁, l₂, by rw [hsplit]; rfl, ?_, hseen⟩
      rw [List.map_cons, List.mem_cons]
      rintro (hx | hl₁)
      · exact hseen (by rw [hx]; simpa using h)
      · exact hnot hl₁
    · rw [if_neg h]
      intro e he
      rcases List.mem_cons.mp he with rfl | he'
      · exact ⟨[], rest, rfl, by simp, by simpa using h⟩
      · obtain ⟨l₁, l₂, hsplit, hnot, hseen⟩ :=
          cleanupSection_first_occ rest (x.name :: seen) e he'
        have hne : e.name ≠ x.name := fun hx => hseen (hx ▸ List.mem_cons_self _ _)
        refine ⟨x :: l₁, l₂, by rw [hsplit]; rfl, ?_, ?_⟩
        · rw [List.map_cons, List.mem_cons]
          rintro (hx | hl₁)
          · exact hne hx
          · exact hnot hl₁
        · exact fun hs => hseen (List.mem_cons_of_mem _ hs)

theorem cleanupSection_complete : ∀ (l : List Entry) (seen : List String),
    ∀ e ∈ l, e.name ∉ seen →
      ∃ e', e' ∈ cleanupSection l seen ∧ e'.name = e.name
  | [], _ => by simp
  | x :: rest, seen => by
    rw [cleanupSection]
    by_cases h : seen.contains x.name = true
    · rw [if_pos h]
      intro e he hseen
      rcases List.mem_cons.mp he with rfl | he'
      · exact absurd (by simpa using h) hseen
      · exact cleanupSection_complete rest seen e he' hseen
    · rw [if_neg h]
      intro e he hseen
      rcases List.mem_cons.mp he with rfl | he'
      · exact ⟨e, List.mem_cons_self _ _, rfl⟩
      · by_cases hname : e.name = x.name
        · exact ⟨x, List.mem_cons_self _ _, hname.symm⟩
        · obtain ⟨e', he'', hn⟩ := cleanupSection_complete rest (x.name :: seen) e he'
            (by rw [List.mem_cons]; rintro (hx | hs); exact hname hx; exact hseen hs)
          exact ⟨e', List.mem_cons_of_mem _ he'', hn⟩

/-!
### The claims about the parser
-/

/-- The document of the spec's plain-text scenario: one `pre.deck-list`
block holding the four lines. -/
def c1Doc : Node :=
  .elem "html" ""
    [.elem "pre" "deck-list"
      [.text "3x Ash Blossom\n2x Ghost Ogre\nExtra Deck:\n1x Accesscode Talker"]]

/-- C1, counterexample: on the spec's own scenario block the parser puts
nothing in the main deck — the `Extra Deck|Extra:` search runs over the
whole block text (line 1162), so the lines before the marker are flipped
to the extra section too. -/
theorem plaintext_split_counterexample :
    (parse_deck_list c1Doc "u").main_deck = [] ∧
    (parse_deck_list c1Doc "u").extra_deck =
      [⟨"Ash Blossom", 3⟩, ⟨"Ghost Ogre", 2⟩, ⟨"Accesscode Talker", 1⟩] ∧
    (parse_deck_list c1Doc "u").main_deck ≠
      [⟨"Ash Blossom", 3⟩, ⟨"Ghost Ogre", 2⟩] := by decide

/-- C1 (corrected): the extra-deck marker of the plain-text strategy is
block-scoped, not line-scoped — every card line of a block is tagged
extra iff `Extra Deck`/`Extra:` occurs anywhere in the block's text
(before or after the line), and main otherwise; in the scenario all
three cards land in the extra deck and the main deck is empty. -/
theorem plaintext_marker_block_scoped (textContent : String)
    (be : Bool × Entry) (h : be ∈ strategy3Container textContent) :
    be.1 = hasExtraMarker textContent := by
  rw [strategy3Container] at h
  obtain ⟨line, -, hline⟩ := List.mem_filterMap.mp h
  rw [Option.map_eq_some'] at hline
  obtain ⟨e, -, rfl⟩ := hline
  rfl

/-- Witness for C1's theorem on a concrete block. -/
theorem plaintext_marker_block_scoped_witness :
    ((true, (⟨"Accesscode Talker", 1⟩ : Entry)) : Bool × Entry).1 =
      hasExtraMarker "Extra Deck:\n1x Accesscode Talker" :=
  plaintext_marker_block_scoped "Extra Deck:\n1x Accesscode Talker"
    (true, ⟨"Accesscode Talker", 1⟩) (by decide)

/-- C6 (confirmed): the parser is a total function — the Python body fills
`deck_info` inside `try/except Exception` and returns it on every path —
and the record's `url` field is exactly the `url` argument, stored at
line 1044 and never modified. -/
theorem parse_total_url_preserved (soup : Node) (url : String) :
    (parse_deck_list soup url).url = url := rfl

/-- C7 (confirmed): in every parse result, no two entries of a section
share a name; each section is a subsequence of the raw extracted section
in which exactly the first occurrence of every name is kept (an entry
survives iff nothing before it in the raw section had its name, and every
raw name is represented), quantities of later duplicates being discarded
with them. -/
theorem parser_dedup_first_kept (soup : Node) (url : String) :
    (((parse_deck_list soup url).main_deck).map Entry.name).Nodup ∧
    (((parse_deck_list soup url).extra_deck).map Entry.name).Nodup ∧
    ((parse_deck_list soup url).main_deck).Sublist (rawSections soup).1 ∧
    ((parse_deck_list soup url).extra_deck).Sublist (rawSections soup).2 ∧
    (∀ e ∈ (parse_deck_list soup url).main_deck, ∃ l₁ l₂,
      (rawSections soup).1 = l₁ ++ e :: l₂ ∧ e.name ∉ l₁.map Entry.name) ∧
    (∀ e ∈ (rawSections soup).1,
      ∃ e' ∈ (parse_deck_list soup url).main_deck, e'.name = e.name) ∧
    (∀ e ∈ (parse_deck_list soup url).extra_deck, ∃ l₁ l₂,
      (rawSections soup).2 = l₁ ++ e :: l₂ ∧ e.name ∉ l₁.map Entry.name) ∧
    (∀ e ∈ (rawSections soup).2,
      ∃ e' ∈ (parse_deck_list soup url).extra_deck, e'.name = e.name) := by
  have hm : (parse_deck_list soup url).main_deck =
      cleanupSection (rawSections soup).1 [] := rfl
  have he : (parse_deck_list soup url).extra_deck =
      cleanupSection (rawSections soup).2 [] := rfl
  rw [hm, he]
  refine ⟨(cleanupSection_nodup _ _).1, (cleanupSection_nodup _ _).1,
    cleanupSection_sublist _ _, cleanupSection_sublist _ _, ?_, ?_, ?_, ?_⟩
  · intro e hin
    obtain ⟨l₁, l₂, hsplit, hnot, -⟩ := cleanupSection_first_occ _ _ e hin
    exact ⟨l₁, l₂, hsplit, hnot⟩
  · intro e hin
    obtain ⟨e', he', hn⟩ := cleanupSection_complete _ [] e hin (by simp)
    exact ⟨e', he', hn⟩
  · intro e hin
    obtain ⟨l₁, l₂, hsplit, hnot, -⟩ := cleanupSection_first_occ _ _ e hin
    exact ⟨l₁, l₂, hsplit, hnot⟩
  · intro e hin
    obtain ⟨e', he', hn⟩ := cleanupSection_complete _ [] e hin (by simp)
    exact ⟨e', he', hn⟩

/-!
## The deck upsert (`save_deck_to_db`, src/yu-gi-oh.py lines 499-546)

The relevant tables of `init_database` (lines 51-72): `decks(id
AUTOINCREMENT PRIMARY KEY, name, author, url UNIQUE, ...)` and
`deck_cards(deck_id, card_name, is_extra_deck, quantity, PRIMARY
KEY(deck_id, card_name))`; timestamps are not observed by any claim and
are omitted. `nextId` models the AUTOINCREMENT counter (an id, once
issued, is never issued again, deleted or not). All statements of one
`save_deck_to_db` call run in the implicit transaction of `with
sqlite3.connect(...)`: an exception anywhere — an injected storage
failure or the composite-key violation on `deck_cards` — rolls the
transaction back, is caught by the `except Exception` at line 544, and
the call returns `False` with the stored state unchanged. A failure
schedule `fail` injects storage-layer errors: statement `k` of the call
raises iff `fail k` (0 = the SELECT, 1 = the deck-row UPDATE+DELETE or
INSERT, 2.. = the association INSERTs, last = the COMMIT).
-/

structure DeckRow where
  id : Nat
  name : String
  author : String
  url : String
deriving Repr, DecidableEq

structure AssocRow where
  deck_id : Nat
  card_name : String
  is_extra_deck : Bool
  quantity : Nat
deriving Repr, DecidableEq

structure DB where
  decks : List DeckRow
  deck_cards : List AssocRow
  nextId : Nat
deriving Repr, DecidableEq

/-- `SELECT id FROM decks WHERE url = ?` + `fetchone()` (lines 506-507). -/
def findDeckByUrl (db : DB) (url : String) : Option Nat :=
  (db.decks.find? (fun r => r.url == url)).map (·.id)

/-- One `INSERT INTO deck_cards` (lines 530-540): raises (`none`) iff a row
with the same `(deck_id, card_name)` primary key already exists. -/
def insertAssoc (rows : List AssocRow) (r : AssocRow) : Option (List AssocRow) :=
  if rows.any (fun x => x.deck_id == r.deck_id && x.card_name == r.card_name)
  then none
  else some (rows ++ [r])

/-- The association-insert loop with the failure schedule, statement
counter `k`. -/
def insertAssocsF (fail : Nat → Bool) : Nat → List AssocRow → List AssocRow →
    Option (List AssocRow)
  | _, rows, [] => some rows
  | k, rows, r :: rest =>
    if fail k then none
    else
      match insertAssoc rows r with
      | none => none
      | some rows' => insertAssocsF fail (k + 1) rows' rest

/-- The association rows `save_deck_to_db` inserts for deck `deckId`
(lines 528-540): the main-deck entries with `is_extra_deck = 0`, then the
extra-deck entries with `is_extra_deck = 1`. -/
def derivedRows (d : DeckInfo) (deckId : Nat) : List AssocRow :=
  d.main_deck.map (fun c => ⟨deckId, c.name, false, c.count⟩) ++
  d.extra_deck.map (fun c => ⟨deckId, c.name, true, c.count⟩)

/-- The tail of `save_deck_to_db` after the deck row was resolved: insert
the association rows into the working copy `draft`, then COMMIT; any
failure rolls back to `db` and returns `False`. -/
def saveTail (db : DB) (d : DeckInfo) (fail : Nat → Bool) (draft : DB)
    (deckId : Nat) : DB × Bool :=
  match insertAssocsF fail 2 draft.deck_cards (derivedRows d deckId) with
  | none => (db, false)
  | some rows =>
    if fail (2 + (derivedRows d deckId).length) then (db, false)
    else ({ draft with deck_cards := rows }, true)

/-- The `UPDATE decks SET name = ?, author = ?, last_updated = ... WHERE
id = ?` of lines 512-516, applied to one row. -/
def updateRow (d : DeckInfo) (i : Nat) (r : DeckRow) : DeckRow :=
  if r.id == i then { r with name := d.name, author := d.author } else r

/-- The working state after the existing-deck branch (lines 509-519):
mutable deck fields updated, all of the deck's association rows deleted. -/
def existingDraft (db : DB) (d : DeckInfo) (i : Nat) : DB :=
  { db with
    decks := db.decks.map (updateRow d i),
    deck_cards := db.deck_cards.filter (fun a => !(a.deck_id == i)) }

/-- The working state after the new-deck branch (lines 520-526): a fresh
row under the next AUTOINCREMENT id (`cursor.lastrowid`). -/
def newDraft (db : DB) (d : DeckInfo) : DB :=
  { db with
    decks := db.decks ++ [⟨db.nextId, d.name, d.author, d.url⟩],
    nextId := db.nextId + 1 }

/-- `save_deck_to_db(deck_info)` (lines 499-546) with the failure schedule
`fail`. For an existing deck (matched by `url`), the deck row's mutable
fields are updated and all its association rows deleted; for a new deck a
fresh row takes the next AUTOINCREMENT id. Then the record's rows are
inserted and the transaction committed. -/
def save_deck_to_db_f (db : DB) (d : DeckInfo) (fail : Nat → Bool) : DB × Bool :=
  if fail 0 then (db, false)
  else if fail 1 then (db, false)
  else
    match findDeckByUrl db d.url with
    | some i => saveTail db d fail (existingDraft db d i) i
    | none => saveTail db d fail (newDraft db d) db.nextId

/-- `save_deck_to_db` as called by the program: no injected storage
failures, so the only remaining failure is the `deck_cards` primary-key
violation. -/
def save_deck_to_db (db : DB) (d : DeckInfo) : DB × Bool :=
  save_deck_to_db_f db d (fun _ => false)

/-- The invariants the sqlite schema maintains for the stored state: deck
ids are unique and below the AUTOINCREMENT counter, urls are unique
(`url UNIQUE`), and every association row's deck id is below the counter
(it was issued at some point). -/
def WF (db : DB) : Prop :=
  (db.decks.map (·.id)).Nodup ∧
  (db.decks.map (·.url)).Nodup ∧
  (∀ r ∈ db.decks, r.id < db.nextId) ∧
  (∀ a ∈ db.deck_cards, a.deck_id < db.nextId)

/-!
### Facts about the upsert
-/

theorem insertAssocsF_eq_append (fail : Nat → Bool) :
    ∀ (l : List AssocRow) (k : Nat) (rows rows' : List AssocRow),
      insertAssocsF fail k rows l = some rows' → rows' = rows ++ l
  | [], k, rows, rows' => by
    rw [insertAssocsF]
    intro h
    simp only [Option.some.injEq] at h
    rw [← h, List.append_nil]
  | r :: rest, k, rows, rows' => by
    rw [insertAssocsF]
    by_cases hk : fail k = true
    · rw [if_pos hk]; intro h; cases h
    · rw [if_neg hk, insertAssoc]
      by_cases hc : rows.any
          (fun x => x.deck_id == r.deck_id && x.card_name == r.card_name) = true
      · rw [if_pos hc]; intro h; cases h
      · rw [if_neg hc]
        intro h
        have := insertAssocsF_eq_append fail rest (k + 1) (rows ++ [r]) rows' h
        rw [this, List.append_assoc, List.singleton_append]

theorem insertAssocsF_noFail (fail : Nat → Bool) :
    ∀ (l : List AssocRow) (k : Nat) (rows rows' : List AssocRow),
      insertAssocsF fail k rows l = some rows' →
      ∀ j, k ≤ j → j < k + l.length → fail j = false
  | [], k, rows, rows' => by
    intro _ j hj1 hj2
    simp at hj2
    omega
  | r :: rest, k, rows, rows' => by
    rw [insertAssocsF]
    by_cases hk : fail k = true
    · rw [if_pos hk]; intro h; cases h
    · rw [if_neg hk]
      cases hins : insertAssoc rows r with
      | none => intro h; cases h
      | some rows'' =>
        intro h j hj1 hj2
        rcases Nat.eq_or_lt_of_le hj1 with rfl | hlt
        · exact Bool.not_eq_true _ ▸ (by simpa using hk)
        · exact insertAssocsF_noFail fail rest (k + 1) rows'' rows' h j hlt
            (by simpa [Nat.add_right_comm] using hj2)

theorem insertAssocsF_conflict (fail : Nat → Bool) :
    ∀ (l₁ : List AssocRow) (y : AssocRow) (l₂ : List AssocRow)
      (k : Nat) (rows : List AssocRow) (x : AssocRow),
      x ∈ rows → x.deck_id = y.deck_id → x.card_name = y.card_name →
      insertAssocsF fail k rows (l₁ ++ y :: l₂) = none
  | [], y, l₂, k, rows, x => by
    intro hx hid hname
    rw [List.nil_append, insertAssocsF]
    by_cases hk : fail k = true
    · rw [if_pos hk]
    · rw [if_neg hk, insertAssoc, if_pos]
      rw [List.any_eq_true]
      exact ⟨x, hx, by simp [hid, hname]⟩
  | a :: l₁, y, l₂, k, rows, x => by
    intro hx hid hname
    rw [List.cons_append, insertAssocsF]
    by_cases hk : fail k = true
    · rw [if_pos hk]
    · rw [if_neg hk, insertAssoc]
      by_cases hc : rows.any
          (fun z => z.deck_id == a.deck_id && z.card_name == a.card_name) = true
      · rw [if_pos hc]
      · rw [if_neg hc]
        exact insertAssocsF_conflict fail l₁ y l₂ (k + 1) (rows ++ [a]) x
          (List.mem_append_left _ hx) hid hname

theorem insertAssocsF_dup (fail : Nat → Bool) :
    ∀ (l₁ : List AssocRow) (r₁ : AssocRow) (l₂ : List AssocRow) (r₂ : AssocRow)
      (l₃ : List AssocRow) (k : Nat) (rows : List AssocRow),
      r₁.deck_id = r₂.deck_id → r₁.card_name = r₂.card_name →
      insertAssocsF fail k rows (l₁ ++ r₁ :: (l₂ ++ r₂ :: l₃)) = none
  | [], r₁, l₂, r₂, l₃, k, rows => by
    intro hid hname
    rw [List.nil_append, insertAssocsF]
    by_cases hk : fail k = true
    · rw [if_pos hk]
    · rw [if_neg hk, insertAssoc]
      by_cases hc : rows.any
          (fun z => z.deck_id == r₁.deck_id && z.card_name == r₁.card_name) = true
      · rw [if_pos hc]
      · rw [if_neg hc]
        exact insertAssocsF_conflict fail l₂ r₂ l₃ (k + 1) (rows ++ [r₁]) r₁
          (List.mem_append_right _ (List.mem_singleton_self _)) hid hname
  | a :: l₁, r₁, l₂, r₂, l₃, k, rows => by
    intro hid hname
    rw [List.cons_append, insertAssocsF]
    by_cases hk : fail k = true
    · rw [if_pos hk]
    · rw [if_neg hk, insertAssoc]
      by_cases hc : rows.any
          (fun z => z.deck_id == a.deck_id && z.card_name == a.card_name) = true
      · rw [if_pos hc]
      · rw [if_neg hc]
        exact insertAssocsF_dup fail l₁ r₁ l₂ r₂ l₃ (k + 1) (rows ++ [a]) hid hname

theorem derivedRows_deckId {d : DeckInfo} {i : Nat} :
    ∀ a ∈ derivedRows d i, a.deck_id = i := by
  intro a ha
  rw [derivedRows] at ha
  rcases List.mem_append.mp ha with h | h <;>
    · obtain ⟨c, -, rfl⟩ := List.mem_map.mp h
      rfl

theorem derivedRows_length {d : DeckInfo} {i : Nat} :
    (derivedRows d i).length = d.main_deck.length + d.extra_deck.length := by
  simp [derivedRows]

theorem saveTail_false {db : DB} {d : DeckInfo} {fail : Nat → Bool} {draft : DB}
    {i : Nat} (h : (saveTail db d fail draft i).2 = false) :
    (saveTail db d fail draft i).1 = db := by
  rw [saveTail] at h ⊢
  revert h
  cases hins : insertAssocsF fail 2 draft.deck_cards (derivedRows d i) with
  | none => intro _; rfl
  | some rows =>
    intro h
    by_cases hc : fail (2 + (derivedRows d i).length) = true
    · simp [hc]
    · simp [hc] at h

theorem saveTail_none {db : DB} {d : DeckInfo} {fail : Nat → Bool} {draft : DB}
    {i : Nat} (h : insertAssocsF fail 2 draft.deck_cards (derivedRows d i) = none) :
    saveTail db d fail draft i = (db, false) := by
  rw [saveTail, h]

theorem saveTail_noFail {db : DB} {d : DeckInfo} {fail : Nat → Bool} {draft : DB}
    {i : Nat} (h : (saveTail db d fail draft i).2 = true) :
    ∀ j, 2 ≤ j → j ≤ 2 + (derivedRows d i).length → fail j = false := by
  rw [saveTail] at h
  revert h
  cases hins : insertAssocsF fail 2 draft.deck_cards (derivedRows d i) with
  | none => intro h; simp at h
  | some rows =>
    intro h
    by_cases hc : fail (2 + (derivedRows d i).length) = true
    · simp [hc] at h
    · intro j hj1 hj2
      rcases Nat.lt_or_ge j (2 + (derivedRows d i).length) with hlt | hge
      · exact insertAssocsF_noFail fail _ 2 _ _ hins j hj1 hlt
      · have : j = 2 + (derivedRows d i).length := by omega
        rw [this]
        exact Bool.not_eq_true _ ▸ (by simpa using hc)

theorem saveTail_success {db : DB} {d : DeckInfo} {draft : DB} {i : Nat}
    (h : (saveTail db d (fun _ => false) draft i).2 = true) :
    saveTail db d (fun _ => false) draft i =
      ({ draft with deck_cards := draft.deck_cards ++ derivedRows d i }, true) := by
  rw [saveTail] at h ⊢
  revert h
  cases hins : insertAssocsF (fun _ => false) 2 draft.deck_cards (derivedRows d i) with
  | none => intro h; simp at h
  | some rows =>
    intro _
    have hrows := insertAssocsF_eq_append _ _ _ _ _ hins
    subst hrows
    rfl

theorem updateRow_id (d : DeckInfo) (i : Nat) (r : DeckRow) :
    (updateRow d i r).id = r.id := by
  rw [updateRow]
  by_cases h : (r.id == i) = true <;> simp [h]

theorem updateRow_url (d : DeckInfo) (i : Nat) (r : DeckRow) :
    (updateRow d i r).url = r.url := by
  rw [updateRow]
  by_cases h : (r.id == i) = true <;> simp [h]

/-!
### The claims about the upsert
-/

/-- C9 (confirmed): an upsert is failure-atomic. Whenever the call reports
`False` — for any injected storage-layer failure and for the internal
primary-key violation alike — the stored state is exactly the state
before the call (the transaction of the `with sqlite3.connect(...)` block
is rolled back and the `except` at line 544 swallows the exception, so
nothing is raised to the caller); and a failure of any statement of the
operation (SELECT, deck write, association inserts, COMMIT) makes it
report `False`. -/
theorem upsert_failure_atomic (db : DB) (d : DeckInfo) (fail : Nat → Bool) :
    ((save_deck_to_db_f db d fail).2 = false → (save_deck_to_db_f db d fail).1 = db) ∧
    ((∃ k, k ≤ 2 + d.main_deck.length + d.extra_deck.length ∧ fail k = true) →
      (save_deck_to_db_f db d fail).2 = false) := by
  constructor
  · intro h
    rw [save_deck_to_db_f] at h ⊢
    by_cases h0 : fail 0 = true
    · rw [if_pos h0]
    · rw [if_neg h0] at h ⊢
      by_cases h1 : fail 1 = true
      · rw [if_pos h1]
      · rw [if_neg h1] at h ⊢
        revert h
        cases findDeckByUrl db d.url with
        | some i => exact fun h => saveTail_false h
        | none => exact fun h => saveTail_false h
  · rintro ⟨k, hk, hfk⟩
    cases hres : (save_deck_to_db_f db d fail).2 with
    | false => rfl
    | true =>
      exfalso
      rw [save_deck_to_db_f] at hres
      by_cases h0 : fail 0 = true
      · rw [if_pos h0] at hres; cases hres
      · rw [if_neg h0] at hres
        by_cases h1 : fail 1 = true
        · rw [if_pos h1] at hres; cases hres
        · rw [if_neg h1] at hres
          have hknot : ¬ (k = 0 ∨ k = 1) := by
            rintro (rfl | rfl)
            · exact h0 hfk
            · exact h1 hfk
          have hk2 : 2 ≤ k := by omega
          revert hres
          cases findDeckByUrl db d.url with
          | some i =>
            intro hres
            have := saveTail_noFail hres k hk2 (by rw [derivedRows_length]; omega)
            rw [this] at hfk
            cases hfk
          | none =>
            intro hres
            have := saveTail_noFail hres k hk2 (by rw [derivedRows_length]; omega)
            rw [this] at hfk
            cases hfk

/-- C10 (confirmed, implicit): a record carrying the same card name in
`main_deck` and `extra_deck` can never be stored — the `deck_cards`
primary key `(deck_id, card_name)` has no section flag, so the extra-deck
insert of that name collides with the main-deck one, the transaction
rolls back, and `save_deck_to_db` returns `False` with the database
unchanged. -/
theorem upsert_name_in_both_sections_fails (db : DB) (d : DeckInfo) (n : String)
    (hmain : n ∈ d.main_deck.map Entry.name)
    (hextra : n ∈ d.extra_deck.map Entry.name) :
    save_deck_to_db db d = (db, false) := by
  have hnone : ∀ (i : Nat) (rows : List AssocRow),
      insertAssocsF (fun _ => false) 2 rows (derivedRows d i) = none := by
    intro i rows
    obtain ⟨em, hem, hemn⟩ := List.mem_map.mp hmain
    obtain ⟨ee, hee, heen⟩ := List.mem_map.mp hextra
    obtain ⟨m₁, m₂, hm⟩ := List.append_of_mem hem
    obtain ⟨e₁, e₂, hx⟩ := List.append_of_mem hee
    have hsplit : derivedRows d i =
        (m₁.map (fun c => AssocRow.mk i c.name false c.count)) ++
        (AssocRow.mk i em.name false em.count) ::
        ((m₂.map (fun c => AssocRow.mk i c.name false c.count) ++
          e₁.map (fun c => AssocRow.mk i c.name true c.count)) ++
         (AssocRow.mk i ee.name true ee.count) ::
          e₂.map (fun c => AssocRow.mk i c.name true c.count)) := by
      rw [derivedRows, hm, hx]
      simp [List.map_append, List.append_assoc]
    rw [hsplit]
    exact insertAssocsF_dup _ _ _ _ _ _ _ _ rfl (hemn.trans heen.symm)
  have hchg : save_deck_to_db db d =
      (match findDeckByUrl db d.url with
        | some i => saveTail db d (fun _ => false) (existingDraft db d i) i
        | none => saveTail db d (fun _ => false) (newDraft db d) db.nextId) := rfl
  rw [hchg]
  cases findDeckByUrl db d.url with
  | some i => exact saveTail_none (hnone i _)
  | none => exact saveTail_none (hnone _ _)

/-- Witness for C10's theorem: the empty store and a record with `"n"` in
both sections. -/
theorem upsert_name_in_both_sections_fails_witness :
    save_deck_to_db ⟨[], [], 0⟩
      ⟨"D", "A", [⟨"n", 1⟩], [⟨"n", 2⟩], "u"⟩ = (⟨[], [], 0⟩, false) :=
  upsert_name_in_both_sections_fails ⟨[], [], 0⟩
    ⟨"D", "A", [⟨"n", 1⟩], [⟨"n", 2⟩], "u"⟩ "n" (by decide) (by decide)

/-- C8 (confirmed): a successful upsert leaves, for the deck stored under
`d.url`, exactly the association rows derived from `d`'s two sections —
the delete-then-reinsert is a full replace, independent of the deck's
prior stored state (under the schema invariants `WF`, which the upsert
also preserves; upserting the same record twice, or re-importing with a
card removed, therefore leaves exactly the latest record's rows). -/
theorem upsert_full_replace (db : DB) (d : DeckInfo) (hwf : WF db)
    (hok : (save_deck_to_db db d).2 = true) :
    (∃ i, findDeckByUrl (save_deck_to_db db d).1 d.url = some i ∧
      (save_deck_to_db db d).1.deck_cards.filter (fun a => a.deck_id == i) =
        derivedRows d i) ∧
    WF (save_deck_to_db db d).1 := by
  obtain ⟨hids, hurls, hidlt, hclt⟩ := hwf
  have hchg : save_deck_to_db db d =
      (match findDeckByUrl db d.url with
        | some i => saveTail db d (fun _ => false) (existingDraft db d i) i
        | none => saveTail db d (fun _ => false) (newDraft db d) db.nextId) := rfl
  cases hf : findDeckByUrl db d.url with
  | some i =>
    have heq : save_deck_to_db db d =
        saveTail db d (fun _ => false) (existingDraft db d i) i := by
      rw [hchg, hf]
    rw [heq] at hok ⊢
    rw [saveTail_success hok]
    obtain ⟨r₀, hr₀, hid₀⟩ := Option.map_eq_some'.mp hf
    have hmem₀ : r₀ ∈ db.decks := List.mem_of_find?_eq_some hr₀
    have hilt : i < db.nextId := hid₀ ▸ hidlt r₀ hmem₀
    constructor
    · refine ⟨i, ?_, ?_⟩
      · show ((db.decks.map (updateRow d i)).find?
            (fun r => r.url == d.url)).map (fun r => r.id) = some i
        rw [List.find?_map]
        have hcomp : ((fun r : DeckRow => r.url == d.url) ∘ updateRow d i) =
            (fun r : DeckRow => r.url == d.url) :=
          funext fun r => by simp [Function.comp, updateRow_url]
        rw [hcomp, hr₀]
        simp [updateRow_id, hid₀]
      · show ((db.deck_cards.filter (fun a => !(a.deck_id == i))) ++
            derivedRows d i).filter (fun a => a.deck_id == i) = derivedRows d i
        rw [List.filter_append]
        have h1 : (db.deck_cards.filter (fun a => !(a.deck_id == i))).filter
            (fun a => a.deck_id == i) = [] := by
          rw [List.filter_eq_nil_iff]
          intro a ha
          have hq := List.of_mem_filter ha
          simp only [Bool.not_eq_true'] at hq
          simp [hq]
        have h2 : (derivedRows d i).filter (fun a => a.deck_id == i) =
            derivedRows d i :=
          List.filter_eq_self.mpr (fun a ha => by simp [derivedRows_deckId a ha])
        rw [h1, h2, List.nil_append]
    · refine ⟨?_, ?_, ?_, ?_⟩
      · show ((db.decks.map (updateRow d i)).map (fun r => r.id)).Nodup
        rw [List.map_map]
        have : ((fun r : DeckRow => r.id) ∘ updateRow d i) =
            fun r : DeckRow => r.id :=
          funext fun r => by simp [Function.comp, updateRow_id]
        rw [this]
        exact hids
      · show ((db.decks.map (updateRow d i)).map (fun r => r.url)).Nodup
        rw [List.map_map]
        have : ((fun r : DeckRow => r.url) ∘ updateRow d i) =
            fun r : DeckRow => r.url :=
          funext fun r => by simp [Function.comp, updateRow_url]
        rw [this]
        exact hurls
      · show ∀ r ∈ db.decks.map (updateRow d i), r.id < db.nextId
        intro r hr
        obtain ⟨r₁, hr₁, rfl⟩ := List.mem_map.mp hr
        rw [updateRow_id]
        exact hidlt r₁ hr₁
      · show ∀ a ∈ (db.deck_cards.filter (fun a => !(a.deck_id == i))) ++
            derivedRows d i, a.deck_id < db.nextId
        intro a ha
        rcases List.mem_append.mp ha with ha | ha
        · exact hclt a (List.mem_of_mem_filter ha)
        · rw [derivedRows_deckId a ha]
          exact hilt
  | none =>
    have heq : save_deck_to_db db d =
        saveTail db d (fun _ => false) (newDraft db d) db.nextId := by
      rw [hchg, hf]
    rw [heq] at hok ⊢
    rw [saveTail_success hok]
    have hnone : db.decks.find? (fun r => r.url == d.url) = none :=
      Option.map_eq_none'.mp hf
    have hnotmem : ∀ r ∈ db.decks, r.url ≠ d.url := by
      intro r hr
      have := List.find?_eq_none.mp hnone r hr
      simpa using this
    constructor
    · refine ⟨db.nextId, ?_, ?_⟩
      · show (((db.decks ++ [(⟨db.nextId, d.name, d.author, d.url⟩ : DeckRow)]).find?
            (fun r => r.url == d.url)).map (fun r => r.id)) = some db.nextId
        rw [List.find?_append, hnone]
        simp
      · show (db.deck_cards ++ derivedRows d db.nextId).filter
            (fun a => a.deck_id == db.nextId) = derivedRows d db.nextId
        rw [List.filter_append]
        have h1 : db.deck_cards.filter (fun a => a.deck_id == db.nextId) = [] := by
          rw [List.filter_eq_nil_iff]
          intro a ha
          have := hclt a ha
          simp only [beq_iff_eq]
          omega
        have h2 : (derivedRows d db.nextId).filter
            (fun a => a.deck_id == db.nextId) = derivedRows d db.nextId :=
          List.filter_eq_self.mpr (fun a ha => by simp [derivedRows_deckId a ha])
        rw [h1, h2, List.nil_append]
    · refine ⟨?_, ?_, ?_, ?_⟩
      · show ((db.decks ++ [(⟨db.nextId, d.name, d.author, d.url⟩ : DeckRow)]).map
            (fun r => r.id)).Nodup
        rw [List.map_append, List.nodup_append]
        refine ⟨hids, by simp, ?_⟩
        intro a ha hb
        obtain ⟨r, hr, rfl⟩ := List.mem_map.mp ha
        simp only [List.map_cons, List.map_nil, List.mem_singleton] at hb
        exact absurd hb (Nat.ne_of_lt (hidlt r hr))
      · show ((db.decks ++ [(⟨db.nextId, d.name, d.author, d.url⟩ : DeckRow)]).map
            (fun r => r.url)).Nodup
        rw [List.map_append, List.nodup_append]
        refine ⟨hurls, by simp, ?_⟩
        intro a ha hb
        obtain ⟨r, hr, rfl⟩ := List.mem_map.mp ha
        simp only [List.map_cons, List.map_nil, List.mem_singleton] at hb
        exact absurd hb (hnotmem r hr)
      · show ∀ r ∈ db.decks ++ [(⟨db.nextId, d.name, d.author, d.url⟩ : DeckRow)],
            r.id < db.nextId + 1
        intro r hr
        rcases List.mem_append.mp hr with hr | hr
        · exact Nat.lt_succ_of_lt (hidlt r hr)
        · rw [List.mem_singleton] at hr
          rw [hr]
          exact Nat.lt_succ_self _
      · show ∀ a ∈ db.deck_cards ++ derivedRows d db.nextId,
            a.deck_id < db.nextId + 1
        intro a ha
        rcases List.mem_append.mp ha with ha | ha
        · exact Nat.lt_succ_of_lt (hclt a ha)
        · rw [derivedRows_deckId a ha]
          exact Nat.lt_succ_self _

/-- Witness for C8's theorem: upserting one record into the empty store. -/
theorem upsert_full_replace_witness :
    (∃ i, findDeckByUrl
        (save_deck_to_db ⟨[], [], 0⟩ ⟨"D", "A", [⟨"x", 3⟩], [⟨"y", 1⟩], "u"⟩).1
        "u" = some i ∧
      (save_deck_to_db ⟨[], [], 0⟩
          ⟨"D", "A", [⟨"x", 3⟩], [⟨"y", 1⟩], "u"⟩).1.deck_cards.filter
        (fun a => a.deck_id == i) =
        derivedRows ⟨"D", "A", [⟨"x", 3⟩], [⟨"y", 1⟩], "u"⟩ i) ∧
    WF (save_deck_to_db ⟨[], [], 0⟩ ⟨"D", "A", [⟨"x", 3⟩], [⟨"y", 1⟩], "u"⟩).1 :=
  upsert_full_replace ⟨[], [], 0⟩ ⟨"D", "A", [⟨"x", 3⟩], [⟨"y", 1⟩], "u"⟩
    (by unfold WF; decide) (by decide)

end YuGiOh
